import Mathlib

/-!
Verification of the environment-variable resolution provider
(laravel/providers/env/provider.go) of the laravel-ls repository.

The provider core (updateRepoFile, updateRepo, Hover, ResolveDefinition,
ResolveCompletion, Diagnostic, ResolveCodeAction) is embedded directly from
the Go source.  The Repository collaborator (Get, Exists, Find, Load) and the
definition-file parser are code of the repository that is not part of the
provided sources, so they are modelled from the specification (sections 4.1
and 4.2 of spec.md).  File reads and tree-sitter query results are passed in
as explicit arguments: an Option String stands for the outcome of opening a
file through the cache, and accessor nodes carry the data the query
collaborator extracts from them (key text, has-default flag, source range).
-/

namespace LaravelLsEnv

/-- Position inside a definitions file, 0-indexed (LSP style line/character). -/
structure Position where
  line : Nat
  character : Nat
deriving DecidableEq

/-- Zero value of a position, the value a Go protocol.Position field keeps
when it is never assigned (used for the absent range end in locations). -/
def Position.zero : Position := ⟨0, 0⟩

/-- Source range of a syntax-tree node. -/
structure Range where
  start : Position
  stop : Position
deriving DecidableEq

/-- End position of a parsed tree, tree-sitter style (row, column). -/
structure Point where
  row : Nat
  column : Nat
deriving DecidableEq

/-- One definition in a Repository snapshot: value and recorded source
position of the effective definition. -/
structure Entry where
  value : String
  line : Nat
  column : Nat
deriving DecidableEq

/-- Repository snapshot: association list from key to Entry, keys unique. -/
abbrev Repository := List (String × Entry)

/-- Accessor-call node, carrying what the query collaborator extracts from
it: the key text (GetKey), the HasDefault flag and the source range. -/
structure EnvNode where
  key : String
  hasDefault : Bool
  range : Range
deriving DecidableEq

/-- Published hover result. -/
structure Hover where
  content : String
deriving DecidableEq

/-- Published location (go-to-definition result). -/
structure Location where
  uri : String
  range : Range
deriving DecidableEq

/-- Diagnostic severity. -/
inductive Severity where
  | error
  | warning
deriving DecidableEq

/-- Published diagnostic. -/
structure Diagnostic where
  range : Range
  severity : Severity
  message : String
deriving DecidableEq

/-- Completion item kind (only the constant kind is used here). -/
inductive CompletionItemKind where
  | constant
deriving DecidableEq

/-- Published completion item. -/
structure CompletionItem where
  label : String
  detail : String
  kind : CompletionItemKind
deriving DecidableEq

/-- Published code action: title, target uri, insertion row and line text. -/
structure CodeAction where
  title : String
  uri : String
  row : Nat
  newText : String
deriving DecidableEq

/-- Provider state: workspace root and the two Repository snapshots
(.env and .env.example), as in the Go Provider struct. -/
structure Provider where
  rootPath : String
  repo : Repository
  exampleRepo : Repository
deriving DecidableEq

/-- Path of the primary definitions file, path.Join(rootPath, ".env") for a
root without a trailing slash. -/
def envPath (root : String) : String := root ++ "/.env"

/-! ### Definition-file parser, modelled from the spec (section 4.1) -/

/-- Whitespace recognised by line trimming. -/
def isWS (c : Char) : Bool := c = ' ' || c = '\t' || c = '\r' || c = '\n'

/-- Drop leading whitespace characters. -/
def dropWS : List Char → List Char
  | [] => []
  | c :: t => if isWS c then dropWS t else c :: t

/-- Trim whitespace from both ends of a line. -/
def trimChars (l : List Char) : List Char :=
  (dropWS (dropWS l.reverse).reverse)

/-- Number of leading whitespace characters of a line (the recorded column
of a definition). -/
def leadingWS : List Char → Nat
  | [] => 0
  | c :: t => if isWS c then leadingWS t + 1 else 0

/-- Split file content into lines at newline characters. -/
def splitLines : List Char → List (List Char)
  | [] => [[]]
  | c :: t =>
    if c = '\n' then [] :: splitLines t
    else
      match splitLines t with
      | [] => [[c]]
      | h :: rest => (c :: h) :: rest

/-- Break a line at the first assignment separator, returning the text
before and after it, or none when the line has no separator. -/
def breakAtEq : List Char → Option (List Char × List Char)
  | [] => none
  | c :: t =>
    if c = '=' then some ([], t)
    else (breakAtEq t).map (fun p => (c :: p.1, p.2))

/-- Quote characters that may surround a value. -/
def isQuote (c : Char) : Bool := c = '"' || c = Char.ofNat 39

/-- Strip one optional layer of surrounding quote characters from a value. -/
def stripQuotes : List Char → List Char
  | c :: d :: t =>
    if isQuote c ∧ (d :: t).getLast? = some c then (d :: t).dropLast
    else c :: d :: t
  | l => l

/-- Modelled from the spec: parse one line of a definitions file (section
4.1).  Blank lines, comment lines (leading # after trimming) and lines
without a separator are skipped; the key is the trimmed text before the
first separator, the value the trimmed text after it with one optional
layer of surrounding quotes stripped.  A line whose trimmed key is empty is
skipped, upholding the section 3 invariant that keys are non-empty.  The
recorded position is the line index and the count of leading whitespace. -/
def parseLine (row : Nat) (line : List Char) : Option (String × Entry) :=
  match trimChars line with
  | [] => none
  | c :: t =>
    if c = '#' then none
    else
      match breakAtEq (c :: t) with
      | none => none
      | some (k, v) =>
        match trimChars k with
        | [] => none
        | kc :: kt =>
          some (⟨kc :: kt⟩,
            { value := ⟨stripQuotes (trimChars v)⟩
              line := row
              column := leadingWS line })

/-- Modelled from the spec: the definitions of a file in textual order,
with their recorded positions. -/
def parseDefs (content : String) : List (String × Entry) :=
  (splitLines content.data).enum.filterMap (fun p => parseLine p.1 p.2)

/-! ### Repository, modelled from the spec (section 4.2) -/

/-- Modelled from the spec: exact lookup, Repository.Get. -/
def repoGet : Repository → String → Option Entry
  | [], _ => none
  | (k, e) :: t, key => if k = key then some e else repoGet t key

/-- Modelled from the spec: Repository.Exists, Get without the value. -/
def repoExists (r : Repository) (key : String) : Bool := (repoGet r key).isSome

/-- Insert a definition, replacing any previous entry for the same key. -/
def repoInsert (key : String) (e : Entry) : Repository → Repository
  | [] => [(key, e)]
  | (k, e₀) :: t => if k = key then (key, e) :: t else (k, e₀) :: repoInsert key e t

/-- Modelled from the spec: Repository.Load builds a fresh snapshot from the
parsed definitions; when a key appears more than once, the last occurrence
wins because later definitions replace earlier ones. -/
def loadEnv (content : String) : Repository :=
  (parseDefs content).foldl (fun r ke => repoInsert ke.1 ke.2 r) []

/-- Lexicographic comparison of key texts, character by character. -/
def lexLe : List Char → List Char → Bool
  | [], _ => true
  | _ :: _, [] => false
  | a :: as, b :: bs => if a < b then true else if b < a then false else lexLe as bs

/-- Ascending lexical order on keyed entries, comparing the key texts. -/
def keyLe (a b : String × Entry) : Prop := lexLe a.1.data b.1.data = true

instance : DecidableRel keyLe := fun _ _ => inferInstanceAs (Decidable (_ = true))

/-- Prefix test on character lists. -/
def pfxOf : List Char → List Char → Bool
  | [], _ => true
  | _ :: _, [] => false
  | a :: as, b :: bs => a = b && pfxOf as bs

/-- Modelled from the spec: Repository.Find, all keys whose text begins with
the given text (empty text matches all), in ascending lexical key order. -/
def repoFind (r : Repository) (text : String) : List (String × Entry) :=
  List.insertionSort keyLe (r.filter (fun kv => pfxOf text.data kv.1.data))

/-! ### Provider, embedded from provider.go -/

/-- updateRepoFile: opening the file may fail (modelled by none), otherwise
the repository is reloaded from the content; per spec section 4.1 a load
from successfully read content never fails. -/
def updateRepoFile (content : Option String) (repo : Repository) : Repository × Bool :=
  match content with
  | none => (repo, false)
  | some c => (loadEnv c, true)

/-- updateRepo: refresh the example repository first (failure ignored, the
example file is optional), then the primary repository, whose success is
the result. -/
def updateRepo (p : Provider) (exContent primContent : Option String) : Provider × Bool :=
  let ex := updateRepoFile exContent p.exampleRepo
  let pr := updateRepoFile primContent p.repo
  ({ p with exampleRepo := ex.1, repo := pr.1 }, pr.2)

/-- Provider.Hover: node is the result of EnvCallAtPosition, the contents
are what the file cache would deliver for .env.example and .env. -/
def hover (p : Provider) (node : Option EnvNode)
    (exContent primContent : Option String) : Provider × Option Hover :=
  match node with
  | none => (p, none)
  | some n =>
    let u := updateRepo p exContent primContent
    if !u.2 then (u.1, none)
    else if n.key.length < 1 then (u.1, none)
    else
      let content :=
        match repoGet u.1.repo n.key with
        | none => "[undefined]"
        | some meta => if meta.value.length < 1 then "[empty]" else meta.value
      (u.1, some ⟨content⟩)

/-- Provider.ResolveDefinition. -/
def resolveDefinition (p : Provider) (node : Option EnvNode)
    (exContent primContent : Option String) : Provider × Option Location :=
  match node with
  | none => (p, none)
  | some n =>
    let u := updateRepo p exContent primContent
    if !u.2 then (u.1, none)
    else
      match repoGet u.1.repo n.key with
      | some meta =>
        (u.1, some ⟨envPath p.rootPath, ⟨⟨meta.line, meta.column⟩, Position.zero⟩⟩)
      | none => (u.1, none)

/-- Provider.ResolveCompletion. -/
def resolveCompletion (p : Provider) (node : Option EnvNode)
    (exContent primContent : Option String) : Provider × List CompletionItem :=
  match node with
  | none => (p, [])
  | some n =>
    let u := updateRepo p exContent primContent
    if !u.2 then (u.1, [])
    else
      (u.1, (repoFind u.1.repo n.key).map
        (fun kv => ⟨kv.1, kv.2.value, CompletionItemKind.constant⟩))

/-- Provider.Diagnostic: captures is the result of EnvCalls on the file. -/
def diagnostic (p : Provider) (captures : List EnvNode)
    (exContent primContent : Option String) : Provider × List Diagnostic :=
  if captures.length > 0 then
    let u := updateRepo p exContent primContent
    if !u.2 then (u.1, [])
    else
      (u.1, captures.filterMap (fun n =>
        if !repoExists u.1.repo n.key && !n.hasDefault then
          some ⟨n.range, Severity.error, "Environment variable is not defined"⟩
        else none))
  else (p, [])

/-- Insertion-row computation of ResolveCodeAction: when the tree end
position is not at column 0, move to the next row. -/
def insertionRow (endPos : Point) : Nat :=
  if endPos.column ≠ 0 then endPos.row + 1 else endPos.row

/-- Loop body of ResolveCodeAction over the nodes in range: an empty key
returns from the whole loop; for an undefined key, an action copying the
example value is published when the example repository has the key, and an
action adding an empty value is always published. -/
def codeActionLoop (repo exRepo : Repository) (uri : String) (row : Nat) :
    List EnvNode → List CodeAction
  | [] => []
  | n :: t =>
    if n.key.length < 1 then []
    else
      (if repoExists repo n.key then []
       else
        (match repoGet exRepo n.key with
         | some meta =>
           [⟨"Copy value from .env.example", uri, row, n.key ++ "=" ++ meta.value⟩]
         | none => []) ++
        [⟨"Add value to .env file", uri, row, n.key ++ "="⟩]) ++
      codeActionLoop repo exRepo uri row t

/-- Provider.ResolveCodeAction: nodes is the result of EnvCallsInRange,
treeEnd the end position of the primary file parsed tree obtained through
the file cache. -/
def resolveCodeAction (p : Provider) (nodes : List EnvNode)
    (exContent primContent : Option String) (treeEnd : Point) :
    Provider × List CodeAction :=
  if nodes.length > 0 then
    let u := updateRepo p exContent primContent
    if !u.2 then (u.1, [])
    else
      (u.1, codeActionLoop u.1.repo u.1.exampleRepo ("file://" ++ envPath p.rootPath)
        (insertionRow treeEnd) nodes)
  else (p, [])

/-! ### Helper lemmas -/

lemma strLen_lt_one_iff (s : String) : s.length < 1 ↔ s = "" := by
  constructor
  · intro h
    cases s with
    | mk data =>
      cases data with
      | nil => rfl
      | cons c t => simp [String.length] at h
  · rintro rfl
    decide

lemma hover_some_eq (p : Provider) (n : EnvNode) (exC : Option String) (c : String) :
    hover p (some n) exC (some c) =
      ((updateRepo p exC (some c)).1,
        if n.key.length < 1 then none
        else some ⟨match repoGet (loadEnv c) n.key with
          | none => "[undefined]"
          | some meta => if meta.value.length < 1 then "[empty]" else meta.value⟩) := by
  by_cases h : n.key.length < 1 <;> simp [hover, updateRepo, updateRepoFile, h]

lemma definition_some_eq (p : Provider) (n : EnvNode) (exC : Option String) (c : String) :
    resolveDefinition p (some n) exC (some c) =
      ((updateRepo p exC (some c)).1,
        match repoGet (loadEnv c) n.key with
        | some meta =>
          some ⟨envPath p.rootPath, ⟨⟨meta.line, meta.column⟩, Position.zero⟩⟩
        | none => none) := by
  cases h : repoGet (loadEnv c) n.key <;>
    simp [resolveDefinition, updateRepo, updateRepoFile, h]

/-! ### Claims -/

/-- C7: for every parsed-tree end position, the computed insertion row is
the end row when the end column is 0 and the end row plus one otherwise, so
inserted lines are never appended mid-line onto existing content. -/
theorem insertionRow_next_line (row col : Nat) :
    insertionRow ⟨row, col⟩ = if col = 0 then row else row + 1 := by
  by_cases h : col = 0 <;> simp [insertionRow, h]

/-- C10: the example Repository is refreshed first and its new snapshot is
kept regardless of the outcome: even when the primary refresh fails and the
request aborts with nothing published, the example Repository has already
been replaced, so an aborted request is not free of state effects. -/
theorem aborted_request_keeps_example_refresh (p : Provider) (ce : String) (n : EnvNode) :
    (updateRepo p (some ce) none).1.exampleRepo = loadEnv ce ∧
    (updateRepo p (some ce) none).1.repo = p.repo ∧
    (updateRepo p (some ce) none).2 = false ∧
    (hover p (some n) (some ce) none).2 = none ∧
    (hover p (some n) (some ce) none).1.exampleRepo = loadEnv ce ∧
    (hover p (some n) (some ce) none).1.repo = p.repo :=
  ⟨rfl, rfl, rfl, rfl, rfl, rfl⟩

/-- C5: when a feature request found at least one accessor node, a failed
primary refresh aborts the whole request with nothing published, while a
failed example refresh is ignored: the request proceeds, using the existing
example snapshot. -/
theorem refresh_error_policy (p : Provider) (exC : Option String) (c : String)
    (n : EnvNode) (captures nodes : List EnvNode) (te : Point)
    (hc : captures ≠ []) (hn : nodes ≠ []) :
    (hover p (some n) exC none).2 = none ∧
    (resolveDefinition p (some n) exC none).2 = none ∧
    (resolveCompletion p (some n) exC none).2 = [] ∧
    (diagnostic p captures exC none).2 = [] ∧
    (resolveCodeAction p nodes exC none te).2 = [] ∧
    (updateRepo p none (some c)).2 = true ∧
    (updateRepo p none (some c)).1.exampleRepo = p.exampleRepo ∧
    (resolveCodeAction p nodes none (some c) te).2 =
      codeActionLoop (loadEnv c) p.exampleRepo ("file://" ++ envPath p.rootPath)
        (insertionRow te) nodes := by
  have hc1 : 0 < captures.length := List.length_pos.mpr hc
  have hn1 : 0 < nodes.length := List.length_pos.mpr hn
  refine ⟨rfl, rfl, rfl, ?_, ?_, rfl, rfl, ?_⟩
  · simp [diagnostic, updateRepo, updateRepoFile, hc1]
  · simp [resolveCodeAction, updateRepo, updateRepoFile, hn1]
  · simp [resolveCodeAction, updateRepo, updateRepoFile, hn1]

/-- C5 witness at a concrete request. -/
theorem refresh_error_policy_witness :
    (diagnostic ⟨"", [], []⟩ [⟨"A", false, ⟨⟨0, 0⟩, ⟨0, 0⟩⟩⟩] none none).2 = [] ∧
    (resolveCodeAction ⟨"", [], []⟩ [⟨"A", false, ⟨⟨0, 0⟩, ⟨0, 0⟩⟩⟩] none none ⟨0, 0⟩).2 = [] :=
  ⟨(refresh_error_policy ⟨"", [], []⟩ none "" ⟨"A", false, ⟨⟨0, 0⟩, ⟨0, 0⟩⟩⟩
      [⟨"A", false, ⟨⟨0, 0⟩, ⟨0, 0⟩⟩⟩] [⟨"A", false, ⟨⟨0, 0⟩, ⟨0, 0⟩⟩⟩] ⟨0, 0⟩
      (by decide) (by decide)).2.2.2.1,
   (refresh_error_policy ⟨"", [], []⟩ none "" ⟨"A", false, ⟨⟨0, 0⟩, ⟨0, 0⟩⟩⟩
      [⟨"A", false, ⟨⟨0, 0⟩, ⟨0, 0⟩⟩⟩] [⟨"A", false, ⟨⟨0, 0⟩, ⟨0, 0⟩⟩⟩] ⟨0, 0⟩
      (by decide) (by decide)).2.2.2.2.1⟩

/-- C1: for a hover request whose accessor node yields a non-empty key,
after a successful primary refresh the published content is "[undefined]"
when the key is absent from the primary Repository, "[empty]" when it is
present with an empty value, and the literal value text otherwise. -/
theorem hover_content_semantics (p : Provider) (n : EnvNode) (exC : Option String)
    (c : String) (hk : n.key ≠ "") :
    (repoGet (loadEnv c) n.key = none →
      (hover p (some n) exC (some c)).2 = some ⟨"[undefined]"⟩) ∧
    (∀ m, repoGet (loadEnv c) n.key = some m → m.value = "" →
      (hover p (some n) exC (some c)).2 = some ⟨"[empty]"⟩) ∧
    (∀ m, repoGet (loadEnv c) n.key = some m → m.value ≠ "" →
      (hover p (some n) exC (some c)).2 = some ⟨m.value⟩) := by
  have hk1 : ¬ n.key.length < 1 := by rw [strLen_lt_one_iff]; exact hk
  refine ⟨?_, ?_, ?_⟩
  · intro hg
    rw [hover_some_eq]
    simp [hk1, hg]
  · intro m hg hv
    have hv1 : m.value.length < 1 := by rw [strLen_lt_one_iff]; exact hv
    rw [hover_some_eq]
    simp [hk1, hg, hv1]
  · intro m hg hv
    have hv1 : ¬ m.value.length < 1 := by rw [strLen_lt_one_iff]; exact hv
    rw [hover_some_eq]
    simp [hk1, hg, hv1]

/-- C1 witness at a concrete request, matching the end-to-end example. -/
theorem hover_content_semantics_witness :
    (hover ⟨"", [], []⟩ (some ⟨"APP_NAME", false, ⟨⟨0, 0⟩, ⟨0, 0⟩⟩⟩) none
      (some "APP_NAME=Laravel\nAPP_DEBUG=true\n")).2 = some ⟨"Laravel"⟩ :=
  (hover_content_semantics ⟨"", [], []⟩ ⟨"APP_NAME", false, ⟨⟨0, 0⟩, ⟨0, 0⟩⟩⟩ none
    "APP_NAME=Laravel\nAPP_DEBUG=true\n" (by decide)).2.2 ⟨"Laravel", 0, 0⟩
    (by decide) (by decide)

/-- C9: when the accessor key is present in the primary Repository, the
definition request publishes a single location at the primary definitions
file path with the stored position as a point location (the range end stays
the zero value); when the key is absent, nothing is published. -/
theorem definition_location (p : Provider) (n : EnvNode) (exC : Option String)
    (c : String) :
    (∀ m, repoGet (loadEnv c) n.key = some m →
      (resolveDefinition p (some n) exC (some c)).2 =
        some ⟨envPath p.rootPath, ⟨⟨m.line, m.column⟩, Position.zero⟩⟩) ∧
    (repoGet (loadEnv c) n.key = none →
      (resolveDefinition p (some n) exC (some c)).2 = none) := by
  refine ⟨?_, ?_⟩
  · intro m hg
    rw [definition_some_eq]
    simp [hg]
  · intro hg
    rw [definition_some_eq]
    simp [hg]

/-- C9 witness at a concrete request. -/
theorem definition_location_witness :
    (resolveDefinition ⟨"/r", [], []⟩ (some ⟨"APP_DEBUG", false, ⟨⟨0, 0⟩, ⟨0, 0⟩⟩⟩) none
      (some "APP_NAME=Laravel\nAPP_DEBUG=true\n")).2 =
      some ⟨"/r/.env", ⟨⟨1, 0⟩, ⟨0, 0⟩⟩⟩ :=
  (definition_location ⟨"/r", [], []⟩ ⟨"APP_DEBUG", false, ⟨⟨0, 0⟩, ⟨0, 0⟩⟩⟩ none
    "APP_NAME=Laravel\nAPP_DEBUG=true\n").1 ⟨"true", 1, 0⟩ (by decide)

lemma diagnostic_some_eq (p : Provider) (captures : List EnvNode) (exC : Option String)
    (c : String) :
    (diagnostic p captures exC (some c)).2 =
      captures.filterMap (fun n =>
        if !repoExists (loadEnv c) n.key && !n.hasDefault then
          some ⟨n.range, Severity.error, "Environment variable is not defined"⟩
        else none) := by
  cases captures with
  | nil => simp [diagnostic]
  | cons h t => simp [diagnostic, updateRepo, updateRepoFile]

/-- C2: a diagnostic is published for an accessor node if and only if the
node's key is absent from the refreshed primary Repository and the node
supplies no default argument; it is error severity, anchored at the node's
full range, with the fixed undefined-variable message. -/
theorem diagnostic_published_iff (p : Provider) (captures : List EnvNode)
    (exC : Option String) (c : String) (d : Diagnostic) :
    d ∈ (diagnostic p captures exC (some c)).2 ↔
      ∃ n ∈ captures, repoExists (loadEnv c) n.key = false ∧ n.hasDefault = false ∧
        d = ⟨n.range, Severity.error, "Environment variable is not defined"⟩ := by
  rw [diagnostic_some_eq]
  simp only [List.mem_filterMap]
  constructor
  · rintro ⟨n, hn, hif⟩
    cases h1 : repoExists (loadEnv c) n.key <;> cases h2 : n.hasDefault <;>
      simp [h1, h2] at hif
    exact ⟨n, hn, h1, h2, hif.symm⟩
  · rintro ⟨n, hn, h1, h2, rfl⟩
    exact ⟨n, hn, by simp [h1, h2]⟩

/-- C2 witness at a concrete request, matching the end-to-end example. -/
theorem diagnostic_published_iff_witness :
    (⟨⟨⟨3, 4⟩, ⟨3, 20⟩⟩, Severity.error, "Environment variable is not defined"⟩ : Diagnostic) ∈
      (diagnostic ⟨"", [], []⟩ [⟨"MISSING_KEY", false, ⟨⟨3, 4⟩, ⟨3, 20⟩⟩⟩] none
        (some "APP_NAME=Laravel\nAPP_DEBUG=true\n")).2 :=
  (diagnostic_published_iff ⟨"", [], []⟩ [⟨"MISSING_KEY", false, ⟨⟨3, 4⟩, ⟨3, 20⟩⟩⟩] none
    "APP_NAME=Laravel\nAPP_DEBUG=true\n" _).mpr
    ⟨⟨"MISSING_KEY", false, ⟨⟨3, 4⟩, ⟨3, 20⟩⟩⟩, by decide, by decide, rfl, rfl⟩

lemma mem_codeActionLoop (repo exRepo : Repository) (uri : String) (row : Nat)
    (nodes : List EnvNode) (hk : ∀ n ∈ nodes, n.key ≠ "") (a : CodeAction) :
    a ∈ codeActionLoop repo exRepo uri row nodes ↔
      ∃ n ∈ nodes, repoExists repo n.key = false ∧
        (a = ⟨"Add value to .env file", uri, row, n.key ++ "="⟩ ∨
         ∃ m, repoGet exRepo n.key = some m ∧
           a = ⟨"Copy value from .env.example", uri, row, n.key ++ "=" ++ m.value⟩) := by
  induction nodes with
  | nil => simp [codeActionLoop]
  | cons n t ih =>
    have hn1 : ¬ n.key.length < 1 := by
      rw [strLen_lt_one_iff]
      exact hk n (by simp)
    have ht : ∀ x ∈ t, x.key ≠ "" := fun x hx => hk x (by simp [hx])
    cases hex : repoExists repo n.key <;>
      cases hg : repoGet exRepo n.key <;>
        simp [codeActionLoop, hn1, hex, hg, ih ht, or_assoc, or_left_comm]

/-- C6: an action is published on a code-action request exactly for nodes
whose (non-empty) key is absent from the refreshed primary Repository: an
action adding key plus an empty value is always published for such a node,
an action copying the example value is published exactly when the key is
present in the example Repository, and a node whose key is present yields
no action. -/
theorem codeAction_published_iff (p : Provider) (nodes : List EnvNode)
    (exC : Option String) (c : String) (te : Point) (a : CodeAction)
    (hk : ∀ n ∈ nodes, n.key ≠ "") :
    a ∈ (resolveCodeAction p nodes exC (some c) te).2 ↔
      ∃ n ∈ nodes, repoExists (loadEnv c) n.key = false ∧
        (a = ⟨"Add value to .env file", "file://" ++ envPath p.rootPath,
              insertionRow te, n.key ++ "="⟩ ∨
         ∃ m, repoGet (updateRepoFile exC p.exampleRepo).1 n.key = some m ∧
           a = ⟨"Copy value from .env.example", "file://" ++ envPath p.rootPath,
                insertionRow te, n.key ++ "=" ++ m.value⟩) := by
  cases nodes with
  | nil => simp [resolveCodeAction]
  | cons n t =>
    have hlen : 0 < (n :: t).length := by simp
    have heq : (resolveCodeAction p (n :: t) exC (some c) te).2 =
        codeActionLoop (loadEnv c) (updateRepoFile exC p.exampleRepo).1
          ("file://" ++ envPath p.rootPath) (insertionRow te) (n :: t) := by
      simp [resolveCodeAction, updateRepo, updateRepoFile, hlen]
    rw [heq]
    exact mem_codeActionLoop _ _ _ _ _ hk a

/-- C6 witness at a concrete request, matching the end-to-end example. -/
theorem codeAction_published_iff_witness :
    (⟨"Copy value from .env.example", "file:///r/.env", 6, "APP_KEY=secret"⟩ : CodeAction) ∈
      (resolveCodeAction ⟨"/r", [], []⟩ [⟨"APP_KEY", false, ⟨⟨0, 0⟩, ⟨0, 0⟩⟩⟩]
        (some "APP_KEY=secret") (some "APP_NAME=Laravel") ⟨5, 12⟩).2 :=
  (codeAction_published_iff ⟨"/r", [], []⟩ [⟨"APP_KEY", false, ⟨⟨0, 0⟩, ⟨0, 0⟩⟩⟩]
    (some "APP_KEY=secret") "APP_NAME=Laravel" ⟨5, 12⟩ _ (by decide)).mpr
    ⟨⟨"APP_KEY", false, ⟨⟨0, 0⟩, ⟨0, 0⟩⟩⟩, by decide, by decide,
      Or.inr ⟨⟨"secret", 0, 0⟩, by decide, by decide⟩⟩

lemma repoGet_insert_self (r : Repository) (k : String) (e : Entry) :
    repoGet (repoInsert k e r) k = some e := by
  induction r with
  | nil => simp [repoInsert, repoGet]
  | cons kv t ih =>
    obtain ⟨k0, e0⟩ := kv
    by_cases h : k0 = k <;> simp [repoInsert, repoGet, h, ih]

lemma repoGet_insert_ne (r : Repository) (k k' : String) (e : Entry) (h : k' ≠ k) :
    repoGet (repoInsert k' e r) k = repoGet r k := by
  induction r with
  | nil => simp [repoInsert, repoGet, h]
  | cons kv t ih =>
    obtain ⟨k0, e0⟩ := kv
    by_cases h0 : k0 = k'
    · subst h0
      simp [repoInsert, repoGet, h]
    · by_cases h1 : k0 = k <;> simp [repoInsert, repoGet, h0, h1, ih, Ne.symm h]

lemma repoGet_foldl_insert (defs : List (String × Entry)) (r : Repository) (k : String) :
    repoGet (defs.foldl (fun r ke => repoInsert ke.1 ke.2 r) r) k =
      match (defs.filter (fun ke => ke.1 == k)).getLast? with
      | some ke => some ke.2
      | none => repoGet r k := by
  induction defs generalizing r with
  | nil => simp
  | cons d t ih =>
    obtain ⟨k0, e0⟩ := d
    rw [List.foldl_cons, ih]
    by_cases h : k0 = k
    · subst h
      rw [List.filter_cons]
      simp only [beq_self_eq_true, if_true, List.getLast?_cons]
      cases hgl : (t.filter fun ke => ke.1 == k0).getLast? with
      | some x => simp [hgl]
      | none => simp [hgl, repoGet_insert_self]
    · have hb : ((k0, e0).1 == k) = false := by simp [h]
      rw [List.filter_cons]
      simp only [hb, Bool.false_eq_true, if_false]
      cases hgl : (t.filter fun ke => ke.1 == k).getLast? with
      | some x => simp [hgl]
      | none => simp [hgl, repoGet_insert_ne r k k0 e0 h]

/-- C4: when a key appears in more than one definition line, Get after Load
returns the entry (value and recorded position) of the last textual
occurrence of the key; parseDefs lists the definitions in textual order, so
the last element of its restriction to the key is that occurrence. -/
theorem load_last_occurrence (c k : String)
    (h : 1 < ((parseDefs c).filter (fun ke => ke.1 == k)).length) :
    repoGet (loadEnv c) k =
      ((parseDefs c).filter (fun ke => ke.1 == k)).getLast?.map Prod.snd ∧
    (repoGet (loadEnv c) k).isSome = true := by
  have he := repoGet_foldl_insert (parseDefs c) [] k
  rw [loadEnv]
  rw [he]
  cases hgl : ((parseDefs c).filter (fun ke => ke.1 == k)).getLast? with
  | none =>
    rw [List.getLast?_eq_none_iff] at hgl
    rw [hgl] at h
    simp at h
  | some x => simp

/-- C4 witness: with content defining A twice, Get returns the value and
the position of the second definition line. -/
theorem load_last_occurrence_witness :
    1 < ((parseDefs "A=1\nB=2\nA=3").filter (fun ke => ke.1 == "A")).length ∧
    repoGet (loadEnv "A=1\nB=2\nA=3") "A" = some ⟨"3", 2, 0⟩ :=
  ⟨by decide, ((load_last_occurrence "A=1\nB=2\nA=3" "A" (by decide)).1).trans (by decide)⟩

lemma lexLe_total : ∀ x y : List Char, lexLe x y = true ∨ lexLe y x = true
  | [], _ => Or.inl rfl
  | _ :: _, [] => Or.inr rfl
  | a :: as, b :: bs => by
    by_cases h1 : a < b
    · exact Or.inl (by simp [lexLe, h1])
    · by_cases h2 : b < a
      · exact Or.inr (by simp [lexLe, h2])
      · cases lexLe_total as bs with
        | inl h => exact Or.inl (by simp [lexLe, h1, h2, h])
        | inr h => exact Or.inr (by simp [lexLe, h1, h2, h])

lemma lexLe_trans : ∀ x y z : List Char,
    lexLe x y = true → lexLe y z = true → lexLe x z = true
  | [], _, _, _, _ => rfl
  | _ :: _, [], _, hxy, _ => by simp [lexLe] at hxy
  | _ :: _, _ :: _, [], _, hyz => by simp [lexLe] at hyz
  | a :: as, b :: bs, c :: cs, hxy, hyz => by
    simp only [lexLe] at hxy hyz ⊢
    by_cases h1 : a < b
    · by_cases h2 : b < c
      · simp [lt_trans h1 h2]
      · by_cases h3 : c < b
        · simp [h2, h3] at hyz
        · have hbc : b = c := le_antisymm (not_lt.mp h3) (not_lt.mp h2)
          subst hbc
          simp [h1]
    · by_cases h1b : b < a
      · simp [h1, h1b] at hxy
      · have hab : a = b := le_antisymm (not_lt.mp h1b) (not_lt.mp h1)
        subst hab
        simp only [lt_irrefl, if_false] at hxy ⊢
        by_cases h2 : a < c
        · simp [h2]
        · by_cases h3 : c < a
          · simp [h2, h3] at hyz
          · have hac : a = c := le_antisymm (not_lt.mp h3) (not_lt.mp h2)
            subst hac
            simp only [lt_irrefl, if_false] at hyz ⊢
            exact lexLe_trans as bs cs hxy hyz

instance : IsTotal (String × Entry) keyLe :=
  ⟨fun a b => lexLe_total a.1.data b.1.data⟩

instance : IsTrans (String × Entry) keyLe :=
  ⟨fun a b c => lexLe_trans a.1.data b.1.data c.1.data⟩

lemma mem_keys_insert (r : Repository) (k : String) (e : Entry) (x : String) :
    x ∈ (repoInsert k e r).map Prod.fst ↔ x = k ∨ x ∈ r.map Prod.fst := by
  induction r with
  | nil => simp [repoInsert]
  | cons kv t ih =>
    obtain ⟨k0, e0⟩ := kv
    by_cases h : k0 = k
    · subst h
      simp [repoInsert]
    · simp [repoInsert, h, ih]
      tauto

lemma nodup_keys_insert (r : Repository) (k : String) (e : Entry)
    (h : (r.map Prod.fst).Nodup) : ((repoInsert k e r).map Prod.fst).Nodup := by
  induction r with
  | nil => simp [repoInsert]
  | cons kv t ih =>
    obtain ⟨k0, e0⟩ := kv
    simp only [List.map_cons, List.nodup_cons] at h
    by_cases hk : k0 = k
    · subst hk
      simpa [repoInsert] using h
    · simp only [repoInsert, hk, if_false, List.map_cons, List.nodup_cons]
      refine ⟨?_, ih h.2⟩
      rw [mem_keys_insert]
      push_neg
      exact ⟨hk, h.1⟩

lemma nodup_keys_foldl (defs : List (String × Entry)) (r : Repository)
    (h : (r.map Prod.fst).Nodup) :
    (((defs.foldl (fun r ke => repoInsert ke.1 ke.2 r) r)).map Prod.fst).Nodup := by
  induction defs generalizing r with
  | nil => exact h
  | cons d t ih => exact ih _ (nodup_keys_insert _ _ _ h)

lemma loadEnv_nodup_keys (c : String) : ((loadEnv c).map Prod.fst).Nodup :=
  nodup_keys_foldl _ [] (by simp)

lemma repoGet_eq_some_iff (r : Repository) (k : String) (e : Entry)
    (h : (r.map Prod.fst).Nodup) : repoGet r k = some e ↔ (k, e) ∈ r := by
  induction r with
  | nil => simp [repoGet]
  | cons kv t ih =>
    obtain ⟨k0, e0⟩ := kv
    simp only [List.map_cons, List.nodup_cons] at h
    by_cases hk : k0 = k
    · subst hk
      constructor
      · intro he
        have he' : e0 = e := by simpa [repoGet] using he
        exact List.mem_cons.mpr (Or.inl (by rw [he']))
      · intro hmem
        rcases List.mem_cons.mp hmem with heq | hmem'
        · have hee : e = e0 := congrArg Prod.snd heq
          simp [repoGet, hee]
        · exact absurd (List.mem_map.mpr ⟨(k0, e), hmem', rfl⟩) h.1
    · simp only [repoGet, hk, if_false, ih h.2, List.mem_cons, Prod.mk.injEq]
      constructor
      · intro hmem
        exact Or.inr hmem
      · rintro (⟨hke, -⟩ | hmem)
        · exact absurd hke.symm hk
        · exact hmem

lemma mem_repoFind (r : Repository) (t : String) (k : String) (e : Entry) :
    (k, e) ∈ repoFind r t ↔ ((k, e) ∈ r ∧ pfxOf t.data k.data = true) := by
  rw [repoFind, (List.perm_insertionSort keyLe _).mem_iff]
  simp [List.mem_filter]

lemma repoFind_sorted (r : Repository) (t : String) :
    (repoFind r t).Pairwise keyLe :=
  List.sorted_insertionSort keyLe _

lemma completion_some_eq (p : Provider) (n : EnvNode) (exC : Option String)
    (c : String) :
    (resolveCompletion p (some n) exC (some c)).2 =
      (repoFind (loadEnv c) n.key).map
        (fun kv => ⟨kv.1, kv.2.value, CompletionItemKind.constant⟩) := by
  simp [resolveCompletion, updateRepo, updateRepoFile]

/-- C3: completion publishes one item per Repository key starting with the
partially-typed key text (empty text matches all), with label the key,
detail the current value and constant kind, in ascending lexical key order;
the published sequence is a pure function of the refreshed Repository and
the text, hence repeatable. -/
theorem completion_items (p : Provider) (n : EnvNode) (exC : Option String)
    (c : String) :
    (resolveCompletion p (some n) exC (some c)).2 =
      (repoFind (loadEnv c) n.key).map
        (fun kv => ⟨kv.1, kv.2.value, CompletionItemKind.constant⟩) ∧
    (repoFind (loadEnv c) n.key).Pairwise keyLe ∧
    (∀ k e, (k, e) ∈ repoFind (loadEnv c) n.key ↔
      (repoGet (loadEnv c) k = some e ∧ pfxOf n.key.data k.data = true)) :=
  ⟨completion_some_eq p n exC c, repoFind_sorted _ _, fun k e => by
    rw [mem_repoFind, repoGet_eq_some_iff _ _ _ (loadEnv_nodup_keys c)]⟩

/-- C3 witness at a concrete request, matching the end-to-end example. -/
theorem completion_items_witness :
    (resolveCompletion ⟨"", [], []⟩ (some ⟨"APP_", false, ⟨⟨0, 0⟩, ⟨0, 0⟩⟩⟩) none
      (some "APP_NAME=Laravel\nAPP_DEBUG=true\n")).2 =
      [⟨"APP_DEBUG", "true", CompletionItemKind.constant⟩,
       ⟨"APP_NAME", "Laravel", CompletionItemKind.constant⟩] :=
  (completion_items ⟨"", [], []⟩ ⟨"APP_", false, ⟨⟨0, 0⟩, ⟨0, 0⟩⟩⟩ none
    "APP_NAME=Laravel\nAPP_DEBUG=true\n").1.trans (by decide)

lemma parseLine_key_ne (i : Nat) (l : List Char) (ke : String × Entry) :
    parseLine i l = some ke → ke.1 ≠ "" := by
  intro h heq
  cases htr : trimChars l with
  | nil => simp [parseLine, htr] at h
  | cons c t =>
    by_cases hc : c = '#'
    · simp [parseLine, htr, hc] at h
    · cases hbr : breakAtEq (c :: t) with
      | none => simp [parseLine, htr, hc, hbr] at h
      | some kv =>
        obtain ⟨k, v⟩ := kv
        cases hkt : trimChars k with
        | nil => simp [parseLine, htr, hc, hbr, hkt] at h
        | cons kc kt =>
          simp only [parseLine, htr, hc, hbr, hkt, if_false, Option.some.injEq] at h
          have hd : ke.1.data = kc :: kt := by rw [← h]
          rw [heq] at hd
          exact absurd hd (by simp)

lemma parseDefs_key_ne (c : String) (ke : String × Entry) (h : ke ∈ parseDefs c) :
    ke.1 ≠ "" := by
  rw [parseDefs] at h
  obtain ⟨p, -, hp⟩ := List.mem_filterMap.mp h
  exact parseLine_key_ne p.1 p.2 ke hp

lemma mem_keys_foldl (defs : List (String × Entry)) (r : Repository) (x : String) :
    x ∈ ((defs.foldl (fun r ke => repoInsert ke.1 ke.2 r) r).map Prod.fst) ↔
      x ∈ r.map Prod.fst ∨ x ∈ defs.map Prod.fst := by
  induction defs generalizing r with
  | nil => simp
  | cons d t ih =>
    rw [List.foldl_cons, ih, mem_keys_insert]
    simp
    tauto

lemma repoGet_loadEnv_empty (c : String) : repoGet (loadEnv c) "" = none := by
  cases hg : repoGet (loadEnv c) "" with
  | none => rfl
  | some e =>
    exfalso
    have hmem := (repoGet_eq_some_iff _ _ _ (loadEnv_nodup_keys c)).mp hg
    have hkey : ("" : String) ∈ (loadEnv c).map Prod.fst :=
      List.mem_map.mpr ⟨("", e), hmem, rfl⟩
    rw [loadEnv, mem_keys_foldl] at hkey
    rcases hkey with h0 | h1
    · simp at h0
    · obtain ⟨ke, hke, hfst⟩ := List.mem_map.mp h1
      exact parseDefs_key_ne c ke hke hfst

/-- C8 counterexample: a diagnostics request whose accessor node yields an
empty key and no default publishes a diagnostic after a successful primary
refresh, so an empty key is not treated as an abort in every feature. -/
theorem empty_key_publish_counterexample :
    (diagnostic ⟨"", [], []⟩ [⟨"", false, ⟨⟨0, 0⟩, ⟨0, 0⟩⟩⟩] none (some "A=1")).2 =
      [⟨⟨⟨0, 0⟩, ⟨0, 0⟩⟩, Severity.error, "Environment variable is not defined"⟩] := by
  decide

/-- C8 amended: hover and code action abort on an empty key text (and a
code-action request stops at the first empty-key node, publishing nothing
for it or later nodes); a definition request publishes nothing because the
parser never records an empty key; but diagnostics treats an empty key as
an ordinary absent key, publishing a diagnostic when the node has no
default, and completion treats it as the empty text, matching every
Repository key. -/
theorem empty_key_behaviour (p : Provider) (exC : Option String) (c : String)
    (n : EnvNode) (rest : List EnvNode) (te : Point) (hk : n.key = "") :
    (hover p (some n) exC (some c)).2 = none ∧
    (resolveCodeAction p (n :: rest) exC (some c) te).2 = [] ∧
    (resolveDefinition p (some n) exC (some c)).2 = none ∧
    (n.hasDefault = false →
      (diagnostic p (n :: rest) exC (some c)).2 =
        ⟨n.range, Severity.error, "Environment variable is not defined"⟩ ::
          rest.filterMap (fun x =>
            if !repoExists (loadEnv c) x.key && !x.hasDefault then
              some ⟨x.range, Severity.error, "Environment variable is not defined"⟩
            else none)) ∧
    (resolveCompletion p (some n) exC (some c)).2 =
      (repoFind (loadEnv c) "").map
        (fun kv => ⟨kv.1, kv.2.value, CompletionItemKind.constant⟩) ∧
    (repoFind (loadEnv c) "").Perm (loadEnv c) := by
  have hfil : (loadEnv c).filter (fun kv => pfxOf ("" : String).data kv.1.data) =
      loadEnv c :=
    List.filter_eq_self.mpr (fun a _ => rfl)
  refine ⟨?_, ?_, ?_, ?_, ?_, ?_⟩
  · rw [hover_some_eq]
    simp [hk]
  · have hlen : 0 < (n :: rest).length := by simp
    simp [resolveCodeAction, updateRepo, updateRepoFile, hlen, codeActionLoop, hk]
  · rw [definition_some_eq, hk, repoGet_loadEnv_empty]
  · intro hd
    rw [diagnostic_some_eq, List.filterMap_cons]
    simp [hk, hd, repoExists, repoGet_loadEnv_empty]
  · rw [completion_some_eq, hk]
  · rw [repoFind, hfil]
    exact List.perm_insertionSort keyLe _

/-- C8 amended witness at a concrete request. -/
theorem empty_key_behaviour_witness :
    (hover ⟨"", [], []⟩ (some ⟨"", false, ⟨⟨0, 0⟩, ⟨0, 0⟩⟩⟩) none (some "A=1")).2 = none ∧
    (resolveCodeAction ⟨"", [], []⟩ [⟨"", false, ⟨⟨0, 0⟩, ⟨0, 0⟩⟩⟩] none (some "A=1")
      ⟨0, 0⟩).2 = [] :=
  ⟨(empty_key_behaviour ⟨"", [], []⟩ none "A=1" ⟨"", false, ⟨⟨0, 0⟩, ⟨0, 0⟩⟩⟩ [] ⟨0, 0⟩
      rfl).1,
   (empty_key_behaviour ⟨"", [], []⟩ none "A=1" ⟨"", false, ⟨⟨0, 0⟩, ⟨0, 0⟩⟩⟩ [] ⟨0, 0⟩
      rfl).2.1⟩

end LaravelLsEnv
